import Mathlib

/-!
Shallow embedding of the sentiment scoring pipeline of
`backend/ml_utils/sentiment_analyzer.py` (class `SentimentAnalyzer`).

Strings are modelled as `List Char` internally (`String` wrappers at the
boundaries).  Python floats are modelled as rationals.  External
collaborators (the transformer model, the pickled baseline model, the
VADER lexicon scorer, the translation service, the emoji table of the
`emoji` library) are modelled as parameters: a tier is an optional
function from the cleaned text to an optional tuple of scores, where
`none` at the outer level means "not loaded" and `none` at the inner
level means "raised at runtime".
-/

namespace SentimentScope

/-- Python `\s` / `str.isspace` on the ASCII range: the whitespace
characters relevant to `str.split`, `str.strip` and the `\s` class of
the cleaning regexes. -/
def isSpaceCh (c : Char) : Bool :=
  c == ' ' || c == '\t' || c == '\n' || c == '\r' || c == '\x0b' || c == '\x0c'

/-- Python `\w` on the ASCII range (used by the `@\w+` mention regex). -/
def isWordCh (c : Char) : Bool :=
  ('a' ≤ c && c ≤ 'z') || ('A' ≤ c && c ≤ 'Z') || ('0' ≤ c && c ≤ '9') || c == '_'

/-- The character class kept by `re.sub(r'[^a-zA-Z0-9\s!?.,]', '', text)`
(source line 106). -/
def keptChar (c : Char) : Bool :=
  ('a' ≤ c && c ≤ 'z') || ('A' ≤ c && c ≤ 'Z') || ('0' ≤ c && c ≤ '9') ||
    isSpaceCh c || c == '!' || c == '?' || c == '.' || c == ','

/-- Python `str.lower` restricted to ASCII letters (the only case the
claims exercise; non-ASCII characters are left unchanged). -/
def toLowerCh (c : Char) : Char :=
  if 'A' ≤ c && c ≤ 'Z' then Char.ofNat (c.toNat + 32) else c

/-- Is the first character of the list a non-space character? -/
def headNonspace (l : List Char) : Bool :=
  match l with
  | c :: _ => !isSpaceCh c
  | [] => false

/-- Is the first character of the list a word character? -/
def headWord (l : List Char) : Bool :=
  match l with
  | c :: _ => isWordCh c
  | [] => false

/-- A match of the regex `http\S+|www\S+` starts at the head of `l`:
the literal prefix followed by at least one non-space character. -/
def urlHead (l : List Char) : Bool :=
  (l.take 4 == ['h', 't', 't', 'p'] && headNonspace (l.drop 4)) ||
    (l.take 3 == ['w', 'w', 'w'] && headNonspace (l.drop 3))

/-- A match of the regex `@\w+` starts at the head of `l`. -/
def mentionHead (l : List Char) : Bool :=
  l.take 1 == ['@'] && headWord (l.drop 1)

/-- Some suffix of `l` starts a `http\S+|www\S+` match, i.e. `l` contains
a substring matched by the URL pattern. -/
def hasURLSub : List Char → Bool
  | [] => false
  | c :: cs => urlHead (c :: cs) || hasURLSub cs

/-- Some suffix of `l` starts an `@\w+` match, i.e. `l` contains a
substring matched by the mention pattern. -/
def hasMentionSub : List Char → Bool
  | [] => false
  | c :: cs => mentionHead (c :: cs) || hasMentionSub cs

/-- Fuel-indexed form of `stripURLs` (structural recursion, so that the
kernel can evaluate it on concrete inputs; the fuel is always at least
the length of the list). -/
def stripURLsF : Nat → List Char → List Char
  | 0, _ => []
  | _ + 1, [] => []
  | fuel + 1, c :: cs =>
    if urlHead (c :: cs) then
      stripURLsF fuel (cs.dropWhile (fun d => !isSpaceCh d))
    else
      c :: stripURLsF fuel cs

/-- `re.sub(r'http\S+|www\S+', '', text)` (source line 98): scan left to
right; at a match, the greedy `\S+` consumes the rest of the maximal
non-space run (the head of the match is non-space, so dropping the run
from the tail equals dropping it from the whole list), and scanning
resumes after it. -/
def stripURLs (l : List Char) : List Char :=
  stripURLsF l.length l

/-- Fuel-indexed form of `stripMentions`. -/
def stripMentionsF : Nat → List Char → List Char
  | 0, _ => []
  | _ + 1, [] => []
  | fuel + 1, c :: cs =>
    if c == '@' && headWord cs then
      stripMentionsF fuel (cs.dropWhile isWordCh)
    else
      c :: stripMentionsF fuel cs

/-- `re.sub(r'@\w+', '', text)` (source line 99): at a match, the `@` and
the maximal following word-character run are consumed. -/
def stripMentions (l : List Char) : List Char :=
  stripMentionsF l.length l

/-- The emoji table of the external `emoji` library, modelled as a finite
character-to-name map (representative entries; the library's full table
is external data, not repository code). -/
def emojiTable : List (Char × List Char) :=
  [('😀', "grinning_face".data), ('😂', "face_with_tears_of_joy".data),
    ('❤', "red_heart".data), ('🔥', "fire".data)]

/-- `emoji.demojize(text, delimiters=(' ', ' '))` (source line 100): each
emoji character is replaced by its name surrounded by single spaces. -/
def demojize (l : List Char) : List Char :=
  (l.map (fun c =>
    match emojiTable.lookup c with
    | some nm => ' ' :: nm ++ [' ']
    | none => [c])).flatten

/-- Fuel-indexed form of `wordsCh`. -/
def wordsChF : Nat → List Char → List (List Char)
  | 0, _ => []
  | _ + 1, [] => []
  | fuel + 1, c :: cs =>
    if isSpaceCh c then
      wordsChF fuel cs
    else
      (c :: cs.takeWhile (fun d => !isSpaceCh d)) ::
        wordsChF fuel (cs.dropWhile (fun d => !isSpaceCh d))

/-- Python `str.split()` (split on whitespace runs, no empty tokens). -/
def wordsCh (l : List Char) : List (List Char) :=
  wordsChF l.length l

/-- The `SENTIMENT_FLIPS` slang-normalization table (source lines 17-29). -/
def SENTIMENT_FLIPS : List (List Char × List Char) :=
  [("underrated".data, "amazing".data),
    ("underdog".data, "winner".data),
    ("goat".data, "best".data),
    ("banger".data, "amazing song".data),
    ("dope".data, "amazing".data),
    ("sick".data, "amazing".data),
    ("fire".data, "amazing".data),
    ("lit".data, "amazing".data),
    ("beast".data, "amazing".data),
    ("slaps".data, "amazing".data),
    ("addicted".data, "loving".data)]

/-- `SENTIMENT_FLIPS.get(word, word)` (source line 103). -/
def slangSub (w : List Char) : List Char :=
  (SENTIMENT_FLIPS.lookup w).getD w

/-- Source lines 102-104: split on whitespace, replace slang tokens,
join with single spaces. -/
def slangJoin (l : List Char) : List Char :=
  List.intercalate [' '] ((wordsCh l).map slangSub)

/-- `re.sub(r'\s+', ' ', text).strip()` (source line 107): every
whitespace run becomes one space and outer whitespace is removed, which
is `' '.join(text.split())`. -/
def collapseWS (l : List Char) : List Char :=
  List.intercalate [' '] (wordsCh l)

/-- `clean_text` (source lines 93-109) on an actual string: empty or
whitespace-only input short-circuits to `""`; otherwise lowercase, strip
URL tokens, strip mention tokens, demojize, normalize slang, drop
characters outside the kept class, collapse whitespace. -/
def cleanCh (l : List Char) : List Char :=
  if l.all isSpaceCh then
    []
  else
    collapseWS (List.filter keptChar
      (slangJoin (demojize (stripMentions (stripURLs (l.map toLowerCh))))))

/-- `clean_text` as a `String → String` function. -/
def cleanText (s : String) : String :=
  ⟨cleanCh s.data⟩

/-- A Python value passed where a string is expected; `clean_text`
branches on `isinstance(text, str)` (source line 94), so the embedding
domain distinguishes strings from non-string values. -/
inductive PyVal where
  | str (s : String)
  | intVal (n : Int)
  | noneVal
  deriving DecidableEq

/-- Is the value a Python string? -/
def PyVal.isString : PyVal → Bool
  | .str _ => true
  | _ => false

/-- `clean_text` on an arbitrary Python value (source lines 93-95):
`if not isinstance(text, str) or not text.strip(): return ""`. -/
def cleanTextPy : PyVal → String
  | .str s => cleanText s
  | _ => ""

/-- Python `str.isascii`: every code point is below 128. -/
def pyIsAscii (s : String) : Bool :=
  s.data.all (fun c => c.toNat < 128)

/-- Python `str.strip()` is empty, i.e. the string is empty or
whitespace-only (`not text or not text.strip()`). -/
def isBlank (s : String) : Bool :=
  s.data.all isSpaceCh

/-- `translate_if_needed` (source lines 80-91).  The external translation
service is the parameter `tr`; `tr t = none` models the call raising,
in which case the original text is returned (source lines 89-91). -/
def translateIfNeeded (tr : String → Option String) (text : String) : String :=
  if isBlank text then text
  else if pyIsAscii text then text
  else
    match tr text with
    | some t => t
    | none => text

/-- The `scores` mapping of a result (negative, neutral, positive). -/
structure Scores where
  negative : ℚ
  neutral : ℚ
  positive : ℚ
  deriving DecidableEq

/-- The dictionary returned by `analyze` and the per-tier helpers. -/
structure SentimentResult where
  sentiment : String
  confidence : ℚ
  scores : Scores
  model_used : String
  deriving DecidableEq

/-- `self.sentiment_labels` (source line 39). -/
def sentimentLabels : List String :=
  ["Negative", "Neutral", "Positive"]

/-- The degenerate neutral default returned for empty input and when no
tier is available (source lines 112-118, 123-129, 149-154). -/
def neutralDefault : SentimentResult :=
  { sentiment := "Neutral"
    confidence := 33 / 100
    scores := { negative := 33 / 100, neutral := 34 / 100, positive := 33 / 100 }
    model_used := "None" }

/-- The decision part of `_analyze_transformer` (source lines 170-196),
given the three softmax class probabilities: the two-class collapse rule
plus the result dictionary with `scores.neutral` forced to `0.0`. -/
def analyzeTransformerRes (negS _neuS posS : ℚ) : SentimentResult :=
  let totalPolarized := negS + posS
  let idxConf : Nat × ℚ :=
    if totalPolarized > 0 then
      if posS > negS then (2, posS) else (0, negS)
    else
      (0, 1 / 2)
  { sentiment := sentimentLabels.getD idxConf.1 ""
    confidence := idxConf.2
    scores := { negative := negS, neutral := 0, positive := posS }
    model_used := "Transformer" }

/-- The decision part of `_analyze_baseline` (source lines 204-230):
identical collapse rule, tagged `Baseline`. -/
def analyzeBaselineRes (negS _neuS posS : ℚ) : SentimentResult :=
  let totalPolarized := negS + posS
  let idxConf : Nat × ℚ :=
    if totalPolarized > 0 then
      if posS > negS then (2, posS) else (0, negS)
    else
      (0, 1 / 2)
  { sentiment := sentimentLabels.getD idxConf.1 ""
    confidence := idxConf.2
    scores := { negative := negS, neutral := 0, positive := posS }
    model_used := "Baseline" }

/-- The decision part of `_analyze_vader` (source lines 234-258), given
the `neg`, `neu`, `pos` and `compound` entries of `polarity_scores`. -/
def analyzeVaderRes (negS neuS posS compound : ℚ) : SentimentResult :=
  if compound ≥ 5 / 100 then
    { sentiment := "Positive", confidence := posS
      scores := { negative := negS, neutral := neuS, positive := posS }
      model_used := "VADER-fallback" }
  else if compound ≤ -(5 / 100) then
    { sentiment := "Negative", confidence := negS
      scores := { negative := negS, neutral := neuS, positive := posS }
      model_used := "VADER-fallback" }
  else
    { sentiment := "Neutral", confidence := neuS
      scores := { negative := negS, neutral := neuS, positive := posS }
      model_used := "VADER-fallback" }

/-- The loaded tier state of one `SentimentAnalyzer` process.  A tier is
`none` when not loaded (`self.model`/`self.tokenizer`,
`self.baseline_model`/`self.baseline_vectorizer`, `self.vader_analyzer`
left as `None`); a loaded tier is the external model, a function from
the cleaned text to its raw scores, returning `none` when inference
raises at runtime.  (The transformer needs both `self.model` and
`self.tokenizer`, and the baseline both model and vectorizer; the pair
is modelled as one optional handle since `analyze` tests both
together.) -/
structure AnalyzerState where
  transformer : Option (String → Option (ℚ × ℚ × ℚ))
  baseline : Option (String → Option (ℚ × ℚ × ℚ))
  vader : Option (String → Option (ℚ × ℚ × ℚ × ℚ))
  translator : String → Option String

/-- The VADER stage of `analyze` (source lines 143-154): used when the
transformer and baseline stages fell through; a missing or failing
VADER analyzer falls through to the neutral default. -/
def vaderStep (st : AnalyzerState) (cleaned : String) : SentimentResult :=
  match st.vader with
  | some h =>
    match h cleaned with
    | some (n, u, p, c) => analyzeVaderRes n u p c
    | none => neutralDefault
  | none => neutralDefault

/-- The baseline stage of `analyze` (source lines 137-141): a missing or
failing baseline model falls through to the VADER stage. -/
def baselineStep (st : AnalyzerState) (cleaned : String) : SentimentResult :=
  match st.baseline with
  | some g =>
    match g cleaned with
    | some (n, u, p) => analyzeBaselineRes n u p
    | none => vaderStep st cleaned
  | none => vaderStep st cleaned

/-- The transformer stage of `analyze` (source lines 131-135):
attempted only when `use_transformer` is set and the model and
tokenizer are loaded; a missing, disabled or failing transformer falls
through to the baseline stage. -/
def transformerStep (st : AnalyzerState) (useTransformer : Bool)
    (cleaned : String) : SentimentResult :=
  match (if useTransformer then st.transformer else none) with
  | some f =>
    match f cleaned with
    | some (n, u, p) => analyzeTransformerRes n u p
    | none => baselineStep st cleaned
  | none => baselineStep st cleaned

/-- `analyze` (source lines 111-154): blank input short-circuits to the
neutral default; otherwise translate, clean, short-circuit again if the
cleaned text is empty, then cascade transformer → baseline → VADER →
neutral default, where every runtime failure of a tier (inner `none`)
falls through to the next stage. -/
def analyze (st : AnalyzerState) (text : String) (useTransformer : Bool) : SentimentResult :=
  if isBlank text then neutralDefault
  else
    let translated := translateIfNeeded st.translator text
    let cleaned := cleanText translated
    if cleaned = "" then neutralDefault
    else transformerStep st useTransformer cleaned

/-- A tier is unavailable for a call on `s`: either it was never loaded
(`none`), or invoking it on `s` raises at runtime (inner `none`). -/
def tierFails {α : Type} (o : Option (String → Option α)) (s : String) : Prop :=
  o = none ∨ ∃ f, o = some f ∧ f s = none

/-- The environment `_load_models` (source lines 46-78) runs in:
whether the model directory and each artifact path exist, whether each
load call succeeds, and whether the name `VaderAnalyzer` is bound to a
truthy value (in the source as given, `VaderAnalyzer` is referenced but
never imported, so the truthy case additionally presumes the intended
import). -/
structure ModelStore where
  modelDirExists : Bool
  transformerPathExists : Bool
  transformerLoadOk : Bool
  baselinePathExists : Bool
  baselineLoadOk : Bool
  vaderAvailable : Bool

/-- Which tiers ended up loaded after `__init__`. -/
structure TierFlags where
  transformerLoaded : Bool
  baselineLoaded : Bool
  vaderLoaded : Bool
  deriving DecidableEq

/-- `_load_models` (source lines 46-78): the transformer is loaded when
its directory exists and loading does not raise; the baseline likewise;
the VADER analyzer is initialized only when neither of the first two
ended up loaded (`if not self.model and not self.baseline_model`,
source line 73) and `VaderAnalyzer` is truthy. -/
def loadModels (env : ModelStore) : TierFlags :=
  let tf := env.modelDirExists && env.transformerPathExists && env.transformerLoadOk
  let bl := env.modelDirExists && env.baselinePathExists && env.baselineLoadOk
  { transformerLoaded := tf
    baselineLoaded := bl
    vaderLoaded := !tf && !bl && env.vaderAvailable }

/-- The `stop_words` set of `get_word_frequencies` (source line 263). -/
def stopWords : List (List Char) :=
  (["the", "a", "an", "and", "or", "but", "in", "on", "at", "to", "for",
    "of", "with", "is", "was", "are", "were", "been", "be", "have", "has",
    "had", "do", "does", "did", "will", "would", "should", "could", "may",
    "might", "can", "this", "that", "these", "those", "i", "you", "he",
    "she", "it", "we", "they", "my", "your", "his", "her", "its", "our",
    "their"]).map String.data

/-- `' '.join([self.clean_text(t) for t in texts])` (source line 261). -/
def allTextCh (texts : List String) : List Char :=
  List.intercalate [' '] (texts.map (fun t => (cleanText t).data))

/-- The filtered token list of `get_word_frequencies` (source lines
265-266): split the joined cleaned text on whitespace and drop stopwords
and tokens of length `≤ 2`. -/
def filteredWords (texts : List String) : List (List Char) :=
  (wordsCh (allTextCh texts)).filter
    (fun w => !stopWords.contains w && decide (2 < w.length))

/-- The distinct elements of `l` in order of first occurrence (the key
order of a Python `Counter` built from `l`). -/
def firstOccs : List (List Char) → List (List Char)
  | [] => []
  | w :: ws => w :: (firstOccs ws).filter (fun v => v ≠ w)

/-- `Counter(filtered_words)` as an association list in insertion
(first-occurrence) order. -/
def tallyOf (texts : List String) : List (List Char × Nat) :=
  (firstOccs (filteredWords texts)).map
    (fun w => (w, (filteredWords texts).count w))

/-- The comparison used by `Counter.most_common`: larger counts first.
`most_common(50)` is `sorted(items, key=count, reverse=True)[:50]`, a
stable descending sort, which `List.insertionSort` with this relation
computes (an element is inserted before exactly the later elements of
strictly smaller count). -/
def countGE (a b : List Char × Nat) : Prop :=
  b.2 ≤ a.2

instance : DecidableRel countGE := fun a b => Nat.decLe b.2 a.2

/-- `get_word_frequencies` (source lines 260-270): the `most_common(50)`
dictionary as an association list. -/
def getWordFrequencies (texts : List String) : List (List Char × Nat) :=
  (List.insertionSort countGE (tallyOf texts)).take 50

/-! ### Unfolding equations for the fuel-indexed recursions -/

theorem length_dropWhile_le {α : Type} (p : α → Bool) (l : List α) :
    (l.dropWhile p).length ≤ l.length := by
  induction l with
  | nil => simp [List.dropWhile]
  | cons c cs ih =>
    rw [List.dropWhile]
    cases p c
    · exact Nat.le_refl _
    · exact Nat.le_succ_of_le ih

theorem stripURLsF_congr :
    ∀ f1 f2 l, l.length ≤ f1 → l.length ≤ f2 → stripURLsF f1 l = stripURLsF f2 l := by
  intro f1
  induction f1 with
  | zero =>
    intro f2 l h1 _
    have : l = [] := List.length_eq_zero.mp (Nat.le_zero.mp h1)
    subst this
    cases f2 <;> rfl
  | succ f ih =>
    intro f2 l h1 h2
    cases l with
    | nil => cases f2 <;> rfl
    | cons c cs =>
      cases f2 with
      | zero => exact absurd h2 (by simp)
      | succ g =>
        have hcs : cs.length ≤ f := by simpa using h1
        have hcs' : cs.length ≤ g := by simpa using h2
        have hd : (cs.dropWhile (fun d => !isSpaceCh d)).length ≤ cs.length :=
          length_dropWhile_le _ _
        simp only [stripURLsF]
        by_cases hu : urlHead (c :: cs)
        · rw [if_pos hu, if_pos hu]
          exact ih _ _ (Nat.le_trans hd hcs) (Nat.le_trans hd hcs')
        · rw [if_neg hu, if_neg hu, ih _ _ hcs hcs']

theorem stripURLs_nil : stripURLs [] = [] := rfl

theorem stripURLs_cons (c : Char) (cs : List Char) :
    stripURLs (c :: cs) =
      if urlHead (c :: cs) then stripURLs (cs.dropWhile (fun d => !isSpaceCh d))
      else c :: stripURLs cs := by
  show stripURLsF (cs.length + 1) (c :: cs) = _
  simp only [stripURLsF]
  by_cases hu : urlHead (c :: cs)
  · rw [if_pos hu, if_pos hu]
    exact stripURLsF_congr _ _ _ (length_dropWhile_le _ _) (Nat.le_refl _)
  · rw [if_neg hu, if_neg hu]
    rfl

theorem stripMentionsF_congr :
    ∀ f1 f2 l, l.length ≤ f1 → l.length ≤ f2 → stripMentionsF f1 l = stripMentionsF f2 l := by
  intro f1
  induction f1 with
  | zero =>
    intro f2 l h1 _
    have : l = [] := List.length_eq_zero.mp (Nat.le_zero.mp h1)
    subst this
    cases f2 <;> rfl
  | succ f ih =>
    intro f2 l h1 h2
    cases l with
    | nil => cases f2 <;> rfl
    | cons c cs =>
      cases f2 with
      | zero => exact absurd h2 (by simp)
      | succ g =>
        have hcs : cs.length ≤ f := by simpa using h1
        have hcs' : cs.length ≤ g := by simpa using h2
        have hd : (cs.dropWhile isWordCh).length ≤ cs.length := length_dropWhile_le _ _
        simp only [stripMentionsF]
        by_cases hm : (c == '@' && headWord cs) = true
        · rw [if_pos hm, if_pos hm]
          exact ih _ _ (Nat.le_trans hd hcs) (Nat.le_trans hd hcs')
        · rw [if_neg hm, if_neg hm, ih _ _ hcs hcs']

theorem stripMentions_nil : stripMentions [] = [] := rfl

theorem stripMentions_cons (c : Char) (cs : List Char) :
    stripMentions (c :: cs) =
      if c == '@' && headWord cs then stripMentions (cs.dropWhile isWordCh)
      else c :: stripMentions cs := by
  show stripMentionsF (cs.length + 1) (c :: cs) = _
  simp only [stripMentionsF]
  by_cases hm : (c == '@' && headWord cs) = true
  · rw [if_pos hm, if_pos hm]
    exact stripMentionsF_congr _ _ _ (length_dropWhile_le _ _) (Nat.le_refl _)
  · rw [if_neg hm, if_neg hm]
    rfl

theorem wordsChF_congr :
    ∀ f1 f2 l, l.length ≤ f1 → l.length ≤ f2 → wordsChF f1 l = wordsChF f2 l := by
  intro f1
  induction f1 with
  | zero =>
    intro f2 l h1 _
    have : l = [] := List.length_eq_zero.mp (Nat.le_zero.mp h1)
    subst this
    cases f2 <;> rfl
  | succ f ih =>
    intro f2 l h1 h2
    cases l with
    | nil => cases f2 <;> rfl
    | cons c cs =>
      cases f2 with
      | zero => exact absurd h2 (by simp)
      | succ g =>
        have hcs : cs.length ≤ f := by simpa using h1
        have hcs' : cs.length ≤ g := by simpa using h2
        have hd : (cs.dropWhile (fun d => !isSpaceCh d)).length ≤ cs.length :=
          length_dropWhile_le _ _
        simp only [wordsChF]
        by_cases hs : isSpaceCh c
        · rw [if_pos hs, if_pos hs, ih _ _ hcs hcs']
        · rw [if_neg hs, if_neg hs, ih _ _ (Nat.le_trans hd hcs) (Nat.le_trans hd hcs')]

theorem wordsCh_nil : wordsCh [] = [] := rfl

theorem wordsCh_cons (c : Char) (cs : List Char) :
    wordsCh (c :: cs) =
      if isSpaceCh c then wordsCh cs
      else (c :: cs.takeWhile (fun d => !isSpaceCh d)) ::
        wordsCh (cs.dropWhile (fun d => !isSpaceCh d)) := by
  show wordsChF (cs.length + 1) (c :: cs) = _
  simp only [wordsChF]
  by_cases hs : isSpaceCh c
  · rw [if_pos hs, if_pos hs]
    rfl
  · rw [if_neg hs, if_neg hs]
    exact congrArg _ (wordsChF_congr _ _ _ (length_dropWhile_le _ _) (Nat.le_refl _))

/-! ### Characterizations of the per-tier decision rules -/

theorem analyzeTransformerRes_eq (negS neuS posS : ℚ) :
    analyzeTransformerRes negS neuS posS =
      { sentiment :=
          if 0 < negS + posS then (if negS < posS then "Positive" else "Negative")
          else "Negative"
        confidence :=
          if 0 < negS + posS then (if negS < posS then posS else negS) else 1 / 2
        scores := { negative := negS, neutral := 0, positive := posS }
        model_used := "Transformer" } := by
  simp only [analyzeTransformerRes, sentimentLabels]
  split_ifs <;> rfl

theorem analyzeBaselineRes_eq (negS neuS posS : ℚ) :
    analyzeBaselineRes negS neuS posS =
      { sentiment :=
          if 0 < negS + posS then (if negS < posS then "Positive" else "Negative")
          else "Negative"
        confidence :=
          if 0 < negS + posS then (if negS < posS then posS else negS) else 1 / 2
        scores := { negative := negS, neutral := 0, positive := posS }
        model_used := "Baseline" } := by
  simp only [analyzeBaselineRes, sentimentLabels]
  split_ifs <;> rfl

/-- C1: for the neural and classical tiers, given class probabilities
(neg, neu, pos): if `pos + neg > 0` the result is Positive with
confidence `pos` when `pos > neg` and otherwise Negative with confidence
`neg` (so an exact tie yields Negative); if `pos + neg = 0` the result
is Negative with confidence `0.5`; in every case the returned
`scores.neutral` is `0` regardless of the raw neutral probability, and
the tier never emits the label Neutral. -/
theorem C1_two_class_collapse (negS neuS posS : ℚ)
    (hneg : 0 ≤ negS) (hpos : 0 ≤ posS) :
    (0 < posS + negS →
      (negS < posS →
        analyzeTransformerRes negS neuS posS =
          { sentiment := "Positive", confidence := posS
            scores := { negative := negS, neutral := 0, positive := posS }
            model_used := "Transformer" } ∧
        analyzeBaselineRes negS neuS posS =
          { sentiment := "Positive", confidence := posS
            scores := { negative := negS, neutral := 0, positive := posS }
            model_used := "Baseline" }) ∧
      (posS ≤ negS →
        analyzeTransformerRes negS neuS posS =
          { sentiment := "Negative", confidence := negS
            scores := { negative := negS, neutral := 0, positive := posS }
            model_used := "Transformer" } ∧
        analyzeBaselineRes negS neuS posS =
          { sentiment := "Negative", confidence := negS
            scores := { negative := negS, neutral := 0, positive := posS }
            model_used := "Baseline" })) ∧
    (posS + negS = 0 →
      analyzeTransformerRes negS neuS posS =
        { sentiment := "Negative", confidence := 1 / 2
          scores := { negative := negS, neutral := 0, positive := posS }
          model_used := "Transformer" } ∧
      analyzeBaselineRes negS neuS posS =
        { sentiment := "Negative", confidence := 1 / 2
          scores := { negative := negS, neutral := 0, positive := posS }
          model_used := "Baseline" }) ∧
    (analyzeTransformerRes negS neuS posS).scores.neutral = 0 ∧
    (analyzeBaselineRes negS neuS posS).scores.neutral = 0 ∧
    (analyzeTransformerRes negS neuS posS).sentiment ≠ "Neutral" ∧
    (analyzeBaselineRes negS neuS posS).sentiment ≠ "Neutral" := by
  rw [analyzeTransformerRes_eq, analyzeBaselineRes_eq]
  refine ⟨?_, ?_, rfl, rfl, ?_, ?_⟩
  · intro h0
    have h0' : 0 < negS + posS := by linarith
    exact ⟨fun hlt => by simp [h0', hlt],
      fun hle => by simp [h0', not_lt.mpr hle]⟩
  · intro h0
    have hn : negS = 0 := by linarith
    have hp : posS = 0 := by linarith
    have h0' : ¬ 0 < negS + posS := by rw [hn, hp]; norm_num
    simp [h0']
  · split_ifs <;> simp
  · split_ifs <;> simp

/-- Witness for `C1_two_class_collapse` at `neg = 1/4, neu = 9/10,
pos = 1/2` (the raw-neutral-dominant shape of the spec's own example). -/
theorem C1_two_class_collapse_witness :
    analyzeTransformerRes (1 / 4) (9 / 10) (1 / 2) =
      { sentiment := "Positive", confidence := 1 / 2
        scores := { negative := 1 / 4, neutral := 0, positive := 1 / 2 }
        model_used := "Transformer" } := by
  have h := C1_two_class_collapse (1 / 4) (9 / 10) (1 / 2)
    (by norm_num) (by norm_num)
  exact ((h.1 (by norm_num)).1 (by norm_num)).1

/-- C4: the lexicon tier thresholds the compound score at `±0.05`
(`compound ≥ 0.05` gives Positive with confidence the `pos` sub-score,
`compound ≤ -0.05` gives Negative with confidence the `neg` sub-score,
strictly between gives Neutral with confidence the `neu` sub-score); it
returns all three raw sub-scores unmodified, tags
`model_used = VADER-fallback`, and — unlike the other two tiers — can
emit the label Neutral. -/
theorem C4_vader_threshold (negS neuS posS compound : ℚ) :
    (5 / 100 ≤ compound →
      analyzeVaderRes negS neuS posS compound =
        { sentiment := "Positive", confidence := posS
          scores := { negative := negS, neutral := neuS, positive := posS }
          model_used := "VADER-fallback" }) ∧
    (compound ≤ -(5 / 100) →
      analyzeVaderRes negS neuS posS compound =
        { sentiment := "Negative", confidence := negS
          scores := { negative := negS, neutral := neuS, positive := posS }
          model_used := "VADER-fallback" }) ∧
    (-(5 / 100) < compound → compound < 5 / 100 →
      analyzeVaderRes negS neuS posS compound =
        { sentiment := "Neutral", confidence := neuS
          scores := { negative := negS, neutral := neuS, positive := posS }
          model_used := "VADER-fallback" }) ∧
    (analyzeVaderRes negS neuS posS compound).scores =
      { negative := negS, neutral := neuS, positive := posS } ∧
    (analyzeVaderRes negS neuS posS compound).model_used = "VADER-fallback" ∧
    (analyzeVaderRes 0 1 0 0).sentiment = "Neutral" := by
  refine ⟨?_, ?_, ?_, ?_, ?_, by norm_num [analyzeVaderRes]⟩
  · intro h
    simp [analyzeVaderRes, h]
  · intro h
    have h' : ¬ (5 / 100 : ℚ) ≤ compound := by
      intro hc
      linarith
    simp [analyzeVaderRes, h, h']
  · intro h1 h2
    have h' : ¬ (5 / 100 : ℚ) ≤ compound := by
      intro hc
      linarith
    have h'' : ¬ compound ≤ -(5 / 100 : ℚ) := by
      intro hc
      linarith
    simp [analyzeVaderRes, h', h'']
  · unfold analyzeVaderRes
    split_ifs <;> rfl
  · unfold analyzeVaderRes
    split_ifs <;> rfl

/-- Witness for `C4_vader_threshold`: `compound = 0.6` lands in the
Positive branch. -/
theorem C4_vader_threshold_witness :
    analyzeVaderRes (1 / 10) (2 / 10) (7 / 10) (6 / 10) =
      { sentiment := "Positive", confidence := 7 / 10
        scores := { negative := 1 / 10, neutral := 2 / 10, positive := 7 / 10 }
        model_used := "VADER-fallback" } :=
  (C4_vader_threshold (1 / 10) (2 / 10) (7 / 10) (6 / 10)).1 (by norm_num)

/-- C6 fails on the code: with identical VADER availability, the lexicon
analyzer is initialized when no model loaded and is not initialized when
the transformer loaded, so whether the lexicon tier is present does
depend on whether the other tiers loaded (source line 73). -/
theorem C6_counterexample :
    (loadModels
      { modelDirExists := true, transformerPathExists := true
        transformerLoadOk := true, baselinePathExists := false
        baselineLoadOk := false, vaderAvailable := true }).vaderLoaded = false ∧
    (loadModels
      { modelDirExists := false, transformerPathExists := false
        transformerLoadOk := false, baselinePathExists := false
        baselineLoadOk := false, vaderAvailable := true }).vaderLoaded = true :=
  ⟨rfl, rfl⟩

/-- C6 amended: the neural and classical tiers are loaded independently
of each other at startup, but the lexicon analyzer is initialized
exactly when neither of them loaded and the lexicon library is
available; the tier state is fixed by `_load_models` at construction
(the embedding's `analyze` takes the state read-only). -/
theorem C6_tier_loading (env : ModelStore) :
    (loadModels env).transformerLoaded =
      (env.modelDirExists && env.transformerPathExists && env.transformerLoadOk) ∧
    (loadModels env).baselineLoaded =
      (env.modelDirExists && env.baselinePathExists && env.baselineLoadOk) ∧
    (loadModels env).vaderLoaded =
      (!(loadModels env).transformerLoaded && !(loadModels env).baselineLoaded &&
        env.vaderAvailable) :=
  ⟨rfl, rfl, rfl⟩

/-- C9: `translate_if_needed` returns its input unchanged on blank
input and on pure-ASCII input (in both cases the result does not depend
on the translation service at all, i.e. no call is made), and whenever
the external call fails the original untranslated text is returned; the
function is total, so no error reaches the caller. -/
theorem C9_translate_best_effort (tr : String → Option String) (text : String) :
    (isBlank text = true → translateIfNeeded tr text = text) ∧
    (pyIsAscii text = true → translateIfNeeded tr text = text) ∧
    ((isBlank text = true ∨ pyIsAscii text = true) →
      ∀ tr', translateIfNeeded tr' text = translateIfNeeded tr text) ∧
    (tr text = none → translateIfNeeded tr text = text) := by
  refine ⟨?_, ?_, ?_, ?_⟩
  · intro h
    simp [translateIfNeeded, h]
  · intro h
    by_cases hb : isBlank text <;> simp [translateIfNeeded, h, hb]
  · rintro (h | h) tr'
    · simp [translateIfNeeded, h]
    · by_cases hb : isBlank text <;> simp [translateIfNeeded, h, hb]
  · intro h
    by_cases hb : isBlank text
    · simp [translateIfNeeded, hb]
    · by_cases ha : pyIsAscii text <;> simp [translateIfNeeded, hb, ha, h]

/-- Witness for `C9_translate_best_effort`: a non-blank, non-ASCII
input whose translation call fails is returned unchanged. -/
theorem C9_translate_best_effort_witness :
    translateIfNeeded (fun _ => none) "café" = "café" :=
  (C9_translate_best_effort (fun _ => none) "café").2.2.2 rfl

/-! ### The `analyze` cascade -/

theorem vaderStep_of_fails (st : AnalyzerState) (s : String)
    (h : tierFails st.vader s) : vaderStep st s = neutralDefault := by
  rcases h with h | ⟨f, hf, hfs⟩
  · simp [vaderStep, h]
  · simp [vaderStep, hf, hfs]

theorem vaderStep_of_ok (st : AnalyzerState) (s : String)
    (f : String → Option (ℚ × ℚ × ℚ × ℚ)) (n u p c : ℚ)
    (hf : st.vader = some f) (hfs : f s = some (n, u, p, c)) :
    vaderStep st s = analyzeVaderRes n u p c := by
  simp [vaderStep, hf, hfs]

theorem baselineStep_of_fails (st : AnalyzerState) (s : String)
    (h : tierFails st.baseline s) : baselineStep st s = vaderStep st s := by
  rcases h with h | ⟨f, hf, hfs⟩
  · simp [baselineStep, h]
  · simp [baselineStep, hf, hfs]

theorem baselineStep_of_ok (st : AnalyzerState) (s : String)
    (g : String → Option (ℚ × ℚ × ℚ)) (n u p : ℚ)
    (hg : st.baseline = some g) (hgs : g s = some (n, u, p)) :
    baselineStep st s = analyzeBaselineRes n u p := by
  simp [baselineStep, hg, hgs]

theorem transformerStep_of_fails (st : AnalyzerState) (uT : Bool) (s : String)
    (h : uT = false ∨ tierFails st.transformer s) :
    transformerStep st uT s = baselineStep st s := by
  rcases h with h | h | ⟨f, hf, hfs⟩
  · simp [transformerStep, h]
  · cases uT <;> simp [transformerStep, h]
  · cases uT <;> simp [transformerStep, hf, hfs]

theorem analyze_not_blank (st : AnalyzerState) (text : String) (uT : Bool)
    (hb : isBlank text = false)
    (hc : cleanText (translateIfNeeded st.translator text) ≠ "") :
    analyze st text uT =
      transformerStep st uT (cleanText (translateIfNeeded st.translator text)) := by
  simp [analyze, hb, hc]

/-- C2: on input that is empty or whitespace-only, or whose cleaned
(normalized) form is empty, `analyze` returns exactly the degenerate
result `sentiment = Neutral`, `confidence = 0.33`,
`scores = (0.33, 0.34, 0.33)`, `model_used = "None"`, for every tier
state (no classifier tier is consulted: the result does not depend on
the tier fields at all). -/
theorem C2_blank_input_default (st : AnalyzerState) (text : String) (uT : Bool)
    (h : isBlank text = true ∨ cleanText (translateIfNeeded st.translator text) = "") :
    analyze st text uT = neutralDefault ∧
    neutralDefault.sentiment = "Neutral" ∧
    neutralDefault.confidence = 33 / 100 ∧
    neutralDefault.scores =
      { negative := 33 / 100, neutral := 34 / 100, positive := 33 / 100 } ∧
    neutralDefault.model_used = "None" := by
  refine ⟨?_, rfl, rfl, rfl, rfl⟩
  by_cases hb : isBlank text
  · simp [analyze, hb]
  · rcases h with h | h
    · exact absurd h hb
    · simp [analyze, hb, h]

/-- Witness for `C2_blank_input_default`: whitespace-only input under a
state in which all three tiers are loaded and would report Positive. -/
theorem C2_blank_input_default_witness :
    analyze
      { transformer := some (fun _ => some (0, 0, 1))
        baseline := some (fun _ => some (0, 0, 1))
        vader := some (fun _ => some (0, 0, 1, 1))
        translator := fun _ => some "good" }
      "   " true = neutralDefault :=
  (C2_blank_input_default _ "   " true (Or.inl (by decide))).1

/-- C3: for non-blank input with a non-empty cleaned form, `analyze`
(a total function — no error propagates to the caller) cascades: if the
neural stage is skipped, unloaded or raises, the classical tier is
attempted on the same cleaned text; if that one is also unavailable or
raises, the lexicon tier is attempted; and if every tier is unavailable
or fails, the degenerate neutral default with `model_used = "None"` is
returned. -/
theorem C3_cascading_fallback (st : AnalyzerState) (text : String) (uT : Bool)
    (hb : isBlank text = false)
    (hc : cleanText (translateIfNeeded st.translator text) ≠ "") :
    (∀ g n u p,
      (uT = false ∨ tierFails st.transformer (cleanText (translateIfNeeded st.translator text))) →
      st.baseline = some g →
      g (cleanText (translateIfNeeded st.translator text)) = some (n, u, p) →
      analyze st text uT = analyzeBaselineRes n u p) ∧
    (∀ f n u p c,
      (uT = false ∨ tierFails st.transformer (cleanText (translateIfNeeded st.translator text))) →
      tierFails st.baseline (cleanText (translateIfNeeded st.translator text)) →
      st.vader = some f →
      f (cleanText (translateIfNeeded st.translator text)) = some (n, u, p, c) →
      analyze st text uT = analyzeVaderRes n u p c) ∧
    ((uT = false ∨ tierFails st.transformer (cleanText (translateIfNeeded st.translator text))) →
      tierFails st.baseline (cleanText (translateIfNeeded st.translator text)) →
      tierFails st.vader (cleanText (translateIfNeeded st.translator text)) →
      analyze st text uT = neutralDefault) := by
  rw [analyze_not_blank st text uT hb hc]
  refine ⟨?_, ?_, ?_⟩
  · intro g n u p h1 hg hgs
    rw [transformerStep_of_fails st uT _ h1, baselineStep_of_ok st _ g n u p hg hgs]
  · intro f n u p c h1 h2 hf hfs
    rw [transformerStep_of_fails st uT _ h1, baselineStep_of_fails st _ h2,
      vaderStep_of_ok st _ f n u p c hf hfs]
  · intro h1 h2 h3
    rw [transformerStep_of_fails st uT _ h1, baselineStep_of_fails st _ h2,
      vaderStep_of_fails st _ h3]

/-- Witness for `C3_cascading_fallback`: a state whose transformer and
baseline tiers raise at runtime and whose VADER tier succeeds — the
lexicon tier's result is returned. -/
theorem C3_cascading_fallback_witness :
    analyze
      { transformer := some (fun _ => none)
        baseline := some (fun _ => none)
        vader := some (fun _ => some (1 / 10, 2 / 10, 7 / 10, 6 / 10))
        translator := fun _ => none }
      "hello" true = analyzeVaderRes (1 / 10) (2 / 10) (7 / 10) (6 / 10) :=
  (C3_cascading_fallback _ "hello" true (by decide) (by decide)).2.1
    (fun _ => some (1 / 10, 2 / 10, 7 / 10, 6 / 10)) (1 / 10) (2 / 10) (7 / 10) (6 / 10)
    (Or.inr (Or.inr ⟨fun _ => none, rfl, rfl⟩))
    (Or.inr ⟨fun _ => none, rfl, rfl⟩) rfl rfl

/-! ### Word frequencies -/

instance : IsTotal (List Char × Nat) countGE :=
  ⟨fun a b => Nat.le_total b.2 a.2⟩

instance : IsTrans (List Char × Nat) countGE :=
  ⟨fun _ _ _ h1 h2 => Nat.le_trans h2 h1⟩

instance : IsRefl (List Char × Nat) countGE :=
  ⟨fun _ => Nat.le_refl _⟩

theorem firstOccs_subset : ∀ (l : List (List Char)) (w : List Char),
    w ∈ firstOccs l → w ∈ l := by
  intro l
  induction l with
  | nil => intro w h; exact absurd h (List.not_mem_nil w)
  | cons x xs ih =>
    intro w h
    rcases List.mem_cons.mp h with h | h
    · exact h ▸ List.mem_cons_self x xs
    · exact List.mem_cons_of_mem x (ih w (List.mem_of_mem_filter h))

theorem tallyOf_mem (texts : List String) (w : List Char) (n : Nat)
    (h : (w, n) ∈ tallyOf texts) :
    w ∈ filteredWords texts ∧ n = (filteredWords texts).count w := by
  rcases List.mem_map.mp h with ⟨w', hw', heq⟩
  have hw : w' = w := congrArg Prod.fst heq
  have hn : (filteredWords texts).count w' = n := congrArg Prod.snd heq
  subst hw
  exact ⟨firstOccs_subset _ _ hw', hn.symm⟩

/-- Stability of `most_common`: elements of any fixed count appear in
the sorted output exactly in their original (first-occurrence) order. -/
theorem filter_insertionSort_eq (l : List (List Char × Nat)) (n : Nat) :
    (List.insertionSort countGE l).filter (fun p => p.2 == n) =
      l.filter (fun p => p.2 == n) := by
  have hperm : List.Perm
      ((List.insertionSort countGE l).filter (fun p => p.2 == n))
      (l.filter (fun p => p.2 == n)) :=
    (List.perm_insertionSort countGE l).filter _
  have hall : ∀ p ∈ l.filter (fun p => p.2 == n), p.2 = n := by
    intro p hp
    simpa using (List.mem_filter.mp hp).2
  have hpw : (l.filter (fun p => p.2 == n)).Pairwise countGE := by
    apply List.pairwise_of_forall_mem_list
    intro a ha b hb
    show b.2 ≤ a.2
    rw [hall a ha, hall b hb]
  have hsub : List.Sublist (l.filter (fun p => p.2 == n))
      (List.insertionSort countGE l) :=
    List.sublist_insertionSort hpw (List.filter_sublist l)
  have hsub2 : List.Sublist (l.filter (fun p => p.2 == n))
      ((List.insertionSort countGE l).filter (fun p => p.2 == n)) := by
    have h3 := hsub.filter (fun p => p.2 == n)
    simpa using h3
  exact (hsub2.eq_of_length hperm.length_eq.symm).symm

set_option maxRecDepth 4000 in
/-- C7: `get_word_frequencies` normalizes each text, tokenizes on
whitespace, drops stopwords and tokens shorter than 3 characters
(`filteredWords`/`tallyOf` are these intermediates of the source
function), and returns at most 50 entries in descending count order
with ties in first-occurrence order (the equal-count entries of the
output are an initial segment of the equal-count entries of the
insertion-ordered tally); the empty sequence yields the empty mapping,
and an input with 60 distinct qualifying words yields exactly 50
entries. -/
theorem C7_word_frequencies :
    getWordFrequencies [] = [] ∧
    (∀ texts, (getWordFrequencies texts).length ≤ 50) ∧
    (∀ texts, (getWordFrequencies texts).Pairwise countGE) ∧
    (∀ texts w n, (w, n) ∈ getWordFrequencies texts →
      n = (filteredWords texts).count w ∧ w ∉ stopWords ∧ 2 < w.length) ∧
    (∀ texts n, ∃ t,
      (getWordFrequencies texts).filter (fun p => p.2 == n) ++ t =
        (tallyOf texts).filter (fun p => p.2 == n)) ∧
    (getWordFrequencies
      ["qaa qab qac qad qae qaf qag qah qba qbb qbc qbd qbe qbf qbg qbh qca qcb qcc qcd qce qcf qcg qch qda qdb qdc qdd qde qdf qdg qdh qea qeb qec qed qee qef qeg qeh qfa qfb qfc qfd qfe qff qfg qfh qga qgb qgc qgd qge qgf qgg qgh qha qhb qhc qhd"]).length
      = 50 := by
  refine ⟨rfl, ?_, ?_, ?_, ?_, by decide⟩
  · intro texts
    rw [getWordFrequencies, List.length_take]
    exact min_le_left _ _
  · intro texts
    exact ((List.sorted_insertionSort countGE (tallyOf texts)).sublist
      (List.take_sublist _ _))
  · intro texts w n h
    have hmem : (w, n) ∈ tallyOf texts :=
      (List.mem_insertionSort countGE).mp (List.take_subset _ _ h)
    obtain ⟨hw, hn⟩ := tallyOf_mem texts w n hmem
    have := (List.mem_filter.mp hw).2
    simp only [Bool.and_eq_true, Bool.not_eq_true', decide_eq_true_eq] at this
    refine ⟨hn, ?_, this.2⟩
    have h1 := this.1
    simp at h1
    exact h1
  · intro texts n
    refine ⟨((List.insertionSort countGE (tallyOf texts)).drop 50).filter
      (fun p => p.2 == n), ?_⟩
    rw [getWordFrequencies, ← List.filter_append, List.take_append_drop,
      filter_insertionSort_eq]

/-- Witness for `C7_word_frequencies` on the spec's own example: in
`["the cat sat", "the cat ran fast"]` the token `cat` has count 2 and
is neither a stopword nor short. -/
theorem C7_word_frequencies_witness :
    2 = (filteredWords ["the cat sat", "the cat ran fast"]).count "cat".data ∧
    "cat".data ∉ stopWords ∧ 2 < "cat".data.length :=
  C7_word_frequencies.2.2.2.1 ["the cat sat", "the cat ran fast"] "cat".data 2
    (by decide)

/-- C10 fails on the code: `clean_text` checks `isinstance(text, str)`
and silently returns `""` for a non-string argument (source line 94)
instead of signalling a distinct error condition. -/
theorem C10_counterexample :
    (PyVal.intVal 5).isString = false ∧ cleanTextPy (PyVal.intVal 5) = "" :=
  ⟨rfl, rfl⟩

/-- C10 amended: for every non-string input, `clean_text` silently
coerces the argument to the empty string rather than signalling a
distinct error condition. -/
theorem C10_nonstring_coerced (v : PyVal) (h : v.isString = false) :
    cleanTextPy v = "" := by
  cases v with
  | str s => simp [PyVal.isString] at h
  | intVal n => rfl
  | noneVal => rfl

/-- Witness for `C10_nonstring_coerced` at Python `None`. -/
theorem C10_nonstring_coerced_witness :
    PyVal.noneVal.isString = false ∧ cleanTextPy PyVal.noneVal = "" :=
  ⟨rfl, C10_nonstring_coerced PyVal.noneVal rfl⟩

/-! ### Pattern heads: characterizations -/

theorem urlHead_http (x : Char) (r : List Char) (hx : isSpaceCh x = false) :
    urlHead ('h' :: 't' :: 't' :: 'p' :: x :: r) = true := by
  simp [urlHead, headNonspace, hx]

theorem urlHead_www (x : Char) (r : List Char) (hx : isSpaceCh x = false) :
    urlHead ('w' :: 'w' :: 'w' :: x :: r) = true := by
  simp [urlHead, headNonspace, hx]

theorem urlHead_cases (l : List Char) (h : urlHead l = true) :
    (∃ x r, l = 'h' :: 't' :: 't' :: 'p' :: x :: r ∧ isSpaceCh x = false) ∨
    (∃ x r, l = 'w' :: 'w' :: 'w' :: x :: r ∧ isSpaceCh x = false) := by
  rcases l with _ | ⟨a, _ | ⟨b, _ | ⟨c, _ | ⟨d, _ | ⟨e, r⟩⟩⟩⟩⟩
  · simp [urlHead] at h
  · simp [urlHead, headNonspace] at h
  · simp [urlHead, headNonspace] at h
  · simp [urlHead, headNonspace] at h
  · simp [urlHead, headNonspace] at h
    obtain ⟨⟨rfl, rfl, rfl⟩, hd⟩ := h
    exact Or.inr ⟨d, [], rfl, hd⟩
  · simp [urlHead, headNonspace] at h
    rcases h with ⟨⟨rfl, rfl, rfl, rfl⟩, he⟩ | ⟨⟨rfl, rfl, rfl⟩, hd⟩
    · exact Or.inl ⟨e, r, rfl, he⟩
    · exact Or.inr ⟨d, e :: r, rfl, hd⟩

theorem mentionHead_cons (x : Char) (r : List Char) (hx : isWordCh x = true) :
    mentionHead ('@' :: x :: r) = true := by
  simp [mentionHead, headWord, hx]

theorem mentionHead_cases (l : List Char) (h : mentionHead l = true) :
    ∃ x r, l = '@' :: x :: r ∧ isWordCh x = true := by
  rcases l with _ | ⟨a, _ | ⟨b, r⟩⟩
  · simp [mentionHead] at h
  · simp [mentionHead, headWord] at h
  · simp [mentionHead, headWord] at h
    exact ⟨b, r, by rw [h.1], h.2⟩

theorem hasURLSub_eq_true_iff (l : List Char) :
    hasURLSub l = true ↔ ∃ a s, l = a ++ s ∧ urlHead s = true := by
  constructor
  · intro h
    induction l with
    | nil => exact absurd h (by simp [hasURLSub])
    | cons c cs ih =>
      rw [hasURLSub, Bool.or_eq_true] at h
      rcases h with h | h
      · exact ⟨[], c :: cs, rfl, h⟩
      · obtain ⟨a, s, rfl, hs⟩ := ih h
        exact ⟨c :: a, s, rfl, hs⟩
  · rintro ⟨a, s, rfl, hs⟩
    induction a with
    | nil =>
      cases s with
      | nil => exact absurd hs (by simp [urlHead, headNonspace])
      | cons c cs => rw [List.nil_append, hasURLSub, hs, Bool.true_or]
    | cons x a' ih =>
      rw [List.cons_append, hasURLSub, ih, Bool.or_true]

theorem hasMentionSub_eq_true_iff (l : List Char) :
    hasMentionSub l = true ↔ ∃ a s, l = a ++ s ∧ mentionHead s = true := by
  constructor
  · intro h
    induction l with
    | nil => exact absurd h (by simp [hasMentionSub])
    | cons c cs ih =>
      rw [hasMentionSub, Bool.or_eq_true] at h
      rcases h with h | h
      · exact ⟨[], c :: cs, rfl, h⟩
      · obtain ⟨a, s, rfl, hs⟩ := ih h
        exact ⟨c :: a, s, rfl, hs⟩
  · rintro ⟨a, s, rfl, hs⟩
    induction a with
    | nil =>
      cases s with
      | nil => exact absurd hs (by simp [mentionHead, headWord])
      | cons c cs => rw [List.nil_append, hasMentionSub, hs, Bool.true_or]
    | cons x a' ih =>
      rw [List.cons_append, hasMentionSub, ih, Bool.or_true]

theorem hasURLSub_append_right (t s : List Char) (h : hasURLSub s = true) :
    hasURLSub (t ++ s) = true := by
  obtain ⟨a, s', rfl, hs⟩ := (hasURLSub_eq_true_iff s).mp h
  exact (hasURLSub_eq_true_iff _).mpr ⟨t ++ a, s', by rw [List.append_assoc], hs⟩

theorem urlHead_hasURLSub (l : List Char) (h : urlHead l = true) :
    hasURLSub l = true :=
  (hasURLSub_eq_true_iff l).mpr ⟨[], l, rfl, h⟩

theorem hasURLSub_of_append_false (t s : List Char)
    (h : hasURLSub (t ++ s) = false) : hasURLSub s = false := by
  cases hts : hasURLSub s with
  | false => rfl
  | true => rw [hasURLSub_append_right t s hts] at h; exact h

theorem hasURLSub_tail_false (c : Char) (cs : List Char)
    (h : hasURLSub (c :: cs) = false) : hasURLSub cs = false := by
  rw [hasURLSub, Bool.or_eq_false_iff] at h
  exact h.2

/-! ### dropWhile and takeWhile helpers -/

theorem dropWhile_head_false {q : Char → Bool} :
    ∀ (l : List Char) (c : Char) (cs : List Char),
      l.dropWhile q = c :: cs → q c = false := by
  intro l
  induction l with
  | nil => intro c cs h; exact absurd h (by simp [List.dropWhile])
  | cons a tl ih =>
    intro c cs h
    rw [List.dropWhile] at h
    cases hq : q a with
    | true => rw [hq] at h; exact ih c cs h
    | false => rw [hq] at h; cases h; exact hq

theorem dropWhile_suffix_ex (q : Char → Bool) (l : List Char) :
    ∃ t, t ++ l.dropWhile q = l := by
  induction l with
  | nil => exact ⟨[], rfl⟩
  | cons a tl ih =>
    rw [List.dropWhile]
    cases hq : q a with
    | true =>
      obtain ⟨t, ht⟩ := ih
      exact ⟨a :: t, by rw [List.cons_append, ht]⟩
    | false => exact ⟨[], rfl⟩

theorem headWord_dropWhile (l : List Char) :
    headWord (l.dropWhile isWordCh) = false := by
  cases hd : l.dropWhile isWordCh with
  | nil => rfl
  | cons c cs =>
    rw [headWord]
    exact dropWhile_head_false l c cs hd

/-! ### After URL-stripping no URL match remains -/

theorem stripURLsF_pre :
    ∀ (f : Nat) (cs p t : List Char), cs.length ≤ f → p ≠ [] →
      (∀ c ∈ p, isSpaceCh c = false) → p ++ t = stripURLsF f cs →
      ∃ t', p ++ t' = cs := by
  intro f
  induction f with
  | zero =>
    intro cs p t hl hp _ heq
    have hcs : cs = [] := List.length_eq_zero.mp (Nat.le_zero.mp hl)
    subst hcs
    rcases p with _ | ⟨x, p'⟩
    · exact absurd rfl hp
    · exact absurd heq (by simp [stripURLsF])
  | succ f ih =>
    intro cs p t hl hp hns heq
    cases cs with
    | nil =>
      rcases p with _ | ⟨x, p'⟩
      · exact absurd rfl hp
      · exact absurd heq (by simp [stripURLsF])
    | cons c tl =>
      have htl : tl.length ≤ f := by simpa using hl
      simp only [stripURLsF] at heq
      by_cases hu : urlHead (c :: tl)
      · rw [if_pos hu] at heq
        have hr : (tl.dropWhile (fun d => !isSpaceCh d)).length ≤ f :=
          Nat.le_trans (length_dropWhile_le _ _) htl
        obtain ⟨t', ht'⟩ := ih _ p t hr hp hns heq
        rcases p with _ | ⟨x, p'⟩
        · exact absurd rfl hp
        · have hx : isSpaceCh x = false := hns x (List.mem_cons_self x p')
          have hform : tl.dropWhile (fun d => !isSpaceCh d) = x :: (p' ++ t') := by
            rw [← ht']
            rfl
          have hq := dropWhile_head_false tl x (p' ++ t') hform
          simp [hx] at hq
      · rw [if_neg hu] at heq
        rcases p with _ | ⟨x, p'⟩
        · exact absurd rfl hp
        · rw [List.cons_append] at heq
          obtain ⟨hx, htail⟩ := (List.cons.injEq _ _ _ _).mp heq
          subst hx
          rcases p' with _ | ⟨y, p''⟩
          · exact ⟨tl, by rw [List.singleton_append]⟩
          · have hns' : ∀ d ∈ y :: p'', isSpaceCh d = false :=
              fun d hd => hns d (List.mem_cons_of_mem _ hd)
            obtain ⟨t', ht'⟩ := ih tl (y :: p'') t htl (by simp) hns' htail
            exact ⟨t', by rw [List.cons_append, ht']⟩

theorem urlHead_cons_stripURLsF (f : Nat) (c : Char) (tl : List Char)
    (h : tl.length ≤ f) (hu : urlHead (c :: stripURLsF f tl) = true) :
    urlHead (c :: tl) = true := by
  rcases urlHead_cases _ hu with ⟨x, r, heq, hx⟩ | ⟨x, r, heq, hx⟩
  · obtain ⟨hc, hX⟩ := (List.cons.injEq _ _ _ _).mp heq
    obtain ⟨t', ht'⟩ := stripURLsF_pre f tl ['t', 't', 'p', x] r h (by simp)
      (by
        intro d hd
        simp only [List.mem_cons, List.not_mem_nil, or_false] at hd
        rcases hd with rfl | rfl | rfl | rfl
        · rfl
        · rfl
        · rfl
        · exact hx)
      (by rw [hX]; rfl)
    rw [hc, ← ht']
    exact urlHead_http x t' hx
  · obtain ⟨hc, hX⟩ := (List.cons.injEq _ _ _ _).mp heq
    obtain ⟨t', ht'⟩ := stripURLsF_pre f tl ['w', 'w', x] r h (by simp)
      (by
        intro d hd
        simp only [List.mem_cons, List.not_mem_nil, or_false] at hd
        rcases hd with rfl | rfl | rfl
        · rfl
        · rfl
        · exact hx)
      (by rw [hX]; rfl)
    rw [hc, ← ht']
    exact urlHead_www x t' hx

theorem hasURLSub_stripURLsF :
    ∀ (f : Nat) (cs : List Char), cs.length ≤ f →
      hasURLSub (stripURLsF f cs) = false := by
  intro f
  induction f with
  | zero =>
    intro cs h
    have hcs : cs = [] := List.length_eq_zero.mp (Nat.le_zero.mp h)
    subst hcs
    rfl
  | succ f ih =>
    intro cs h
    cases cs with
    | nil => rfl
    | cons c tl =>
      have htl : tl.length ≤ f := by simpa using h
      simp only [stripURLsF]
      by_cases hu : urlHead (c :: tl)
      · rw [if_pos hu]
        exact ih _ (Nat.le_trans (length_dropWhile_le _ _) htl)
      · rw [if_neg hu, hasURLSub, Bool.or_eq_false_iff]
        refine ⟨?_, ih _ htl⟩
        cases hcu : urlHead (c :: stripURLsF f tl) with
        | false => rfl
        | true => exact absurd (urlHead_cons_stripURLsF f c tl htl hcu) hu

theorem hasURLSub_stripURLs (l : List Char) : hasURLSub (stripURLs l) = false :=
  hasURLSub_stripURLsF l.length l (Nat.le_refl _)

/-! ### After mention-stripping no mention match remains -/

theorem headWord_stripMentionsF :
    ∀ (f : Nat) (cs : List Char), cs.length ≤ f →
      headWord (stripMentionsF f cs) = true → headWord cs = true := by
  intro f
  induction f with
  | zero =>
    intro cs h hw
    have hcs : cs = [] := List.length_eq_zero.mp (Nat.le_zero.mp h)
    subst hcs
    exact hw
  | succ f ih =>
    intro cs h hw
    cases cs with
    | nil => exact hw
    | cons c tl =>
      have htl : tl.length ≤ f := by simpa using h
      simp only [stripMentionsF] at hw
      by_cases hm : (c == '@' && headWord tl) = true
      · rw [if_pos hm] at hw
        have hword := ih _ (Nat.le_trans (length_dropWhile_le _ _) htl) hw
        rw [headWord_dropWhile] at hword
        exact absurd hword (by simp)
      · rw [if_neg hm] at hw
        exact hw

theorem hasMentionSub_stripMentionsF :
    ∀ (f : Nat) (cs : List Char), cs.length ≤ f →
      hasMentionSub (stripMentionsF f cs) = false := by
  intro f
  induction f with
  | zero =>
    intro cs h
    have hcs : cs = [] := List.length_eq_zero.mp (Nat.le_zero.mp h)
    subst hcs
    rfl
  | succ f ih =>
    intro cs h
    cases cs with
    | nil => rfl
    | cons c tl =>
      have htl : tl.length ≤ f := by simpa using h
      simp only [stripMentionsF]
      by_cases hm : (c == '@' && headWord tl) = true
      · rw [if_pos hm]
        exact ih _ (Nat.le_trans (length_dropWhile_le _ _) htl)
      · rw [if_neg hm, hasMentionSub, Bool.or_eq_false_iff]
        refine ⟨?_, ih _ htl⟩
        cases hcm : mentionHead (c :: stripMentionsF f tl) with
        | false => rfl
        | true =>
          obtain ⟨x, r, heq, hx⟩ := mentionHead_cases _ hcm
          obtain ⟨hc, hX⟩ := (List.cons.injEq _ _ _ _).mp heq
          have hws : headWord (stripMentionsF f tl) = true := by
            rw [hX]
            exact hx
          have hwtl := headWord_stripMentionsF f tl htl hws
          exact absurd (by rw [hc]; simp [hwtl]) hm

theorem hasMentionSub_stripMentions (l : List Char) :
    hasMentionSub (stripMentions l) = false :=
  hasMentionSub_stripMentionsF l.length l (Nat.le_refl _)

/-! ### Mention-stripping cannot create a URL match -/

theorem urlHead_append_transfer (a' r tl : List Char) (ha : a' ≠ [])
    (hr : headWord r = false) (hu : urlHead (a' ++ r) = true) :
    urlHead (a' ++ '@' :: tl) = true := by
  rcases urlHead_cases _ hu with ⟨x, s, heq, hx⟩ | ⟨x, s, heq, hx⟩
  · rcases a' with _ | ⟨c1, _ | ⟨c2, _ | ⟨c3, _ | ⟨c4, _ | ⟨c5, a''⟩⟩⟩⟩⟩
    · exact absurd rfl ha
    · simp only [List.cons_append, List.nil_append, List.cons.injEq] at heq
      obtain ⟨rfl, hr2⟩ := heq
      rw [hr2] at hr
      exact absurd hr (by simp [headWord, isWordCh])
    · simp only [List.cons_append, List.nil_append, List.cons.injEq] at heq
      obtain ⟨rfl, rfl, hr2⟩ := heq
      rw [hr2] at hr
      exact absurd hr (by simp [headWord, isWordCh])
    · simp only [List.cons_append, List.nil_append, List.cons.injEq] at heq
      obtain ⟨rfl, rfl, rfl, hr2⟩ := heq
      rw [hr2] at hr
      exact absurd hr (by simp [headWord, isWordCh])
    · simp only [List.cons_append, List.nil_append, List.cons.injEq] at heq
      obtain ⟨rfl, rfl, rfl, rfl, -⟩ := heq
      simp only [List.cons_append, List.nil_append]
      exact urlHead_http '@' tl rfl
    · simp only [List.cons_append, List.cons.injEq] at heq
      obtain ⟨rfl, rfl, rfl, rfl, h5, -⟩ := heq
      subst h5
      simp only [List.cons_append]
      exact urlHead_http c5 (a'' ++ '@' :: tl) hx
  · rcases a' with _ | ⟨c1, _ | ⟨c2, _ | ⟨c3, _ | ⟨c4, a''⟩⟩⟩⟩
    · exact absurd rfl ha
    · simp only [List.cons_append, List.nil_append, List.cons.injEq] at heq
      obtain ⟨rfl, hr2⟩ := heq
      rw [hr2] at hr
      exact absurd hr (by simp [headWord, isWordCh])
    · simp only [List.cons_append, List.nil_append, List.cons.injEq] at heq
      obtain ⟨rfl, rfl, hr2⟩ := heq
      rw [hr2] at hr
      exact absurd hr (by simp [headWord, isWordCh])
    · simp only [List.cons_append, List.nil_append, List.cons.injEq] at heq
      obtain ⟨rfl, rfl, rfl, -⟩ := heq
      simp only [List.cons_append, List.nil_append]
      exact urlHead_www '@' tl rfl
    · simp only [List.cons_append, List.cons.injEq] at heq
      obtain ⟨rfl, rfl, rfl, h4, -⟩ := heq
      subst h4
      simp only [List.cons_append]
      exact urlHead_www c4 (a'' ++ '@' :: tl) hx

theorem hasURLSub_append_stripMentionsF :
    ∀ (f : Nat) (l pre : List Char), l.length ≤ f →
      hasURLSub (pre ++ l) = false → hasURLSub (pre ++ stripMentionsF f l) = false := by
  intro f
  induction f with
  | zero =>
    intro l pre hl h
    have hls : l = [] := List.length_eq_zero.mp (Nat.le_zero.mp hl)
    subst hls
    exact h
  | succ f ih =>
    intro l pre hl h
    cases l with
    | nil => exact h
    | cons c tl =>
      have htl : tl.length ≤ f := by simpa using hl
      simp only [stripMentionsF]
      by_cases hm : (c == '@' && headWord tl) = true
      · rw [if_pos hm]
        have hc : c = '@' := beq_iff_eq.mp ((Bool.and_eq_true _ _).mp hm).1
        subst hc
        have htl_false : hasURLSub tl = false :=
          hasURLSub_tail_false _ _ (hasURLSub_of_append_false pre _ h)
        have hr_false : hasURLSub (tl.dropWhile isWordCh) = false := by
          obtain ⟨t0, ht0⟩ := dropWhile_suffix_ex isWordCh tl
          rw [← ht0] at htl_false
          exact hasURLSub_of_append_false t0 _ htl_false
        have hpre_r : hasURLSub (pre ++ tl.dropWhile isWordCh) = false := by
          cases hcontra : hasURLSub (pre ++ tl.dropWhile isWordCh) with
          | false => rfl
          | true =>
            exfalso
            obtain ⟨a, s, heq, hus⟩ := (hasURLSub_eq_true_iff _).mp hcontra
            rcases List.append_eq_append_iff.mp heq with ⟨a2, _, hs2⟩ | ⟨c2, hc2, hs2⟩
            · rw [hs2, hasURLSub_append_right a2 s (urlHead_hasURLSub s hus)]
                at hr_false
              exact Bool.noConfusion hr_false
            · rcases c2 with _ | ⟨e, c2'⟩
              · rw [List.nil_append] at hs2
                rw [← hs2] at hr_false
                rw [urlHead_hasURLSub _ hus] at hr_false
                exact Bool.noConfusion hr_false
              · have htrans := urlHead_append_transfer (e :: c2') _ tl (by simp)
                  (headWord_dropWhile tl) (hs2 ▸ hus)
                have : hasURLSub (pre ++ '@' :: tl) = true := by
                  rw [hc2, List.append_assoc]
                  exact hasURLSub_append_right a _ (urlHead_hasURLSub _ htrans)
                rw [this] at h
                exact Bool.noConfusion h
        exact ih _ pre (Nat.le_trans (length_dropWhile_le _ _) htl) hpre_r
      · rw [if_neg hm]
        have h' : hasURLSub ((pre ++ [c]) ++ tl) = false := by
          rw [← List.append_cons]
          exact h
        have := ih tl (pre ++ [c]) htl h'
        rw [← List.append_cons] at this
        exact this

theorem hasURLSub_stripMentions (l : List Char) (h : hasURLSub l = false) :
    hasURLSub (stripMentions l) = false := by
  have := hasURLSub_append_stripMentionsF l.length l [] (Nat.le_refl _)
    (by simpa using h)
  simpa using this

/-- C5 fails on the code as stated: the later character-stripping step
(source line 106) can re-create a URL-pattern substring that the
URL-stripping step could not see.  On the non-empty input `"ht~tpx"`
the normalized output is `"httpx"`, which contains the URL-pattern
substring `http` followed by a non-space character (an http-prefixed
whitespace-delimited token). -/
theorem C5_counterexample :
    "ht~tpx" ≠ "" ∧
    cleanText "ht~tpx" = "httpx" ∧
    hasURLSub (cleanText "ht~tpx").data = true :=
  ⟨by decide, by decide, by decide⟩

/-- C5 amended: for every input, the intermediate text right after the
URL-stripping and mention-stripping steps of `clean_text` contains no
substring matching the URL pattern and none matching the mention
pattern (the guarantee holds at the stripping stage; the final
character-stripping step can re-create a URL substring). -/
theorem C5_no_url_mention_after_strip (x : String) :
    hasURLSub (stripMentions (stripURLs (x.data.map toLowerCh))) = false ∧
    hasMentionSub (stripMentions (stripURLs (x.data.map toLowerCh))) = false :=
  ⟨hasURLSub_stripMentions _ (hasURLSub_stripURLs _),
    hasMentionSub_stripMentions _⟩

/-! ### Structure of `wordsCh`: tokens are non-empty and space-free -/

theorem wordsChF_tokens :
    ∀ (f : Nat) (l : List Char), l.length ≤ f →
      ∀ w ∈ wordsChF f l, w ≠ [] ∧ ∀ c ∈ w, isSpaceCh c = false := by
  intro f
  induction f with
  | zero =>
    intro l h w hw
    have hl : l = [] := List.length_eq_zero.mp (Nat.le_zero.mp h)
    subst hl
    exact absurd hw (by simp [wordsChF])
  | succ f ih =>
    intro l h w hw
    cases l with
    | nil => exact absurd hw (by simp [wordsChF])
    | cons c tl =>
      have htl : tl.length ≤ f := by simpa using h
      simp only [wordsChF] at hw
      by_cases hs : isSpaceCh c
      · rw [if_pos hs] at hw
        exact ih tl htl w hw
      · rw [if_neg hs] at hw
        rcases List.mem_cons.mp hw with rfl | hw
        · refine ⟨by simp, ?_⟩
          intro d hd
          rcases List.mem_cons.mp hd with rfl | hd
          · exact Bool.of_not_eq_true hs
          · have := List.mem_takeWhile_imp hd
            simpa using this
        · exact ih _ (Nat.le_trans (length_dropWhile_le _ _) htl) w hw

theorem wordsCh_tokens (l : List Char) :
    ∀ w ∈ wordsCh l, w ≠ [] ∧ ∀ c ∈ w, isSpaceCh c = false :=
  wordsChF_tokens l.length l (Nat.le_refl _)

theorem takeWhile_append_all (p : Char → Bool) (w r : List Char)
    (h : ∀ c ∈ w, p c = true) :
    (w ++ r).takeWhile p = w ++ r.takeWhile p := by
  induction w with
  | nil => rfl
  | cons c cs ih =>
    rw [List.cons_append, List.takeWhile_cons, h c (List.mem_cons_self c cs)]
    rw [ih (fun d hd => h d (List.mem_cons_of_mem c hd))]
    rfl

theorem dropWhile_append_all (p : Char → Bool) (w r : List Char)
    (h : ∀ c ∈ w, p c = true) :
    (w ++ r).dropWhile p = r.dropWhile p := by
  induction w with
  | nil => rfl
  | cons c cs ih =>
    rw [List.cons_append, List.dropWhile_cons, h c (List.mem_cons_self c cs)]
    exact ih (fun d hd => h d (List.mem_cons_of_mem c hd))

theorem wordsCh_single (w : List Char) (hw : w ≠ [])
    (hns : ∀ c ∈ w, isSpaceCh c = false) : wordsCh w = [w] := by
  cases w with
  | nil => exact absurd rfl hw
  | cons c cs =>
    rw [wordsCh_cons, if_neg (by rw [hns c (List.mem_cons_self c cs)]; simp)]
    have h1 : cs.takeWhile (fun d => !isSpaceCh d) = cs :=
      List.takeWhile_eq_self_iff.mpr
        (fun d hd => by rw [hns d (List.mem_cons_of_mem c hd)]; rfl)
    have h2 : cs.dropWhile (fun d => !isSpaceCh d) = [] :=
      List.dropWhile_eq_nil_iff.mpr
        (fun d hd => by rw [hns d (List.mem_cons_of_mem c hd)]; rfl)
    rw [h1, h2, wordsCh_nil]

theorem wordsCh_token_append (w rest : List Char) (hw : w ≠ [])
    (hns : ∀ c ∈ w, isSpaceCh c = false) :
    wordsCh (w ++ ' ' :: rest) = w :: wordsCh rest := by
  cases w with
  | nil => exact absurd rfl hw
  | cons c cs =>
    rw [List.cons_append, wordsCh_cons,
      if_neg (by rw [hns c (List.mem_cons_self c cs)]; simp)]
    have hcs : ∀ d ∈ cs, (fun d => !isSpaceCh d) d = true := by
      intro d hd
      show (!isSpaceCh d) = true
      rw [hns d (List.mem_cons_of_mem c hd)]
      rfl
    rw [takeWhile_append_all _ cs (' ' :: rest) hcs,
      dropWhile_append_all _ cs (' ' :: rest) hcs]
    have ht : (' ' :: rest).takeWhile (fun d => !isSpaceCh d) = [] := by
      rw [List.takeWhile_cons]
      norm_num [isSpaceCh]
    have hd : (' ' :: rest).dropWhile (fun d => !isSpaceCh d) = ' ' :: rest := by
      rw [List.dropWhile_cons]
      norm_num [isSpaceCh]
    rw [ht, hd, List.append_nil, wordsCh_cons, if_pos (by norm_num [isSpaceCh])]

theorem intercalate_space_cons_cons (w w2 : List Char) (ws : List (List Char)) :
    List.intercalate [' '] (w :: w2 :: ws) =
      w ++ ' ' :: List.intercalate [' '] (w2 :: ws) := by
  simp [List.intercalate, List.intersperse]

theorem wordsCh_intercalate :
    ∀ (ws : List (List Char)),
      (∀ w ∈ ws, w ≠ [] ∧ ∀ c ∈ w, isSpaceCh c = false) →
      wordsCh (List.intercalate [' '] ws) = ws := by
  intro ws
  induction ws with
  | nil => intro _; simp [List.intercalate, wordsCh_nil]
  | cons w ws' ih =>
    intro h
    cases ws' with
    | nil =>
      have hw := h w (List.mem_cons_self w _)
      rw [show List.intercalate [' '] [w] = w by simp [List.intercalate]]
      exact wordsCh_single w hw.1 hw.2
    | cons w2 ws'' =>
      have hw := h w (List.mem_cons_self w _)
      rw [intercalate_space_cons_cons, wordsCh_token_append w _ hw.1 hw.2,
        ih (fun v hv => h v (List.mem_cons_of_mem w hv))]

theorem collapseWS_idem (m : List Char) :
    collapseWS (collapseWS m) = collapseWS m := by
  rw [collapseWS, collapseWS, wordsCh_intercalate (wordsCh m) (wordsCh_tokens m)]

/-! ### Character-class propagation through the cleaning stages -/

theorem toNat_ofNat_valid (n : Nat) (h : n.isValidChar) :
    (Char.ofNat n).toNat = n := by
  unfold Char.ofNat
  rw [dif_pos h]
  rfl

theorem char_le_iff (a b : Char) : a ≤ b ↔ a.toNat ≤ b.toNat := by
  rw [Char.le_def, UInt32.le_def]
  exact BitVec.le_def

theorem toLowerCh_not_upper (c : Char) :
    ('A' ≤ toLowerCh c && toLowerCh c ≤ 'Z') = false := by
  rw [toLowerCh]
  by_cases h : ('A' ≤ c && c ≤ 'Z') = true
  · rw [if_pos h]
    simp only [Bool.and_eq_true, decide_eq_true_eq] at h
    have h2 : c.toNat ≤ 90 := (char_le_iff c 'Z').mp h.2
    have h1 : 65 ≤ c.toNat := (char_le_iff 'A' c).mp h.1
    have hv : (c.toNat + 32).isValidChar := Or.inl (by omega)
    have ht : (Char.ofNat (c.toNat + 32)).toNat = c.toNat + 32 :=
      toNat_ofNat_valid _ hv
    have hno : ¬ (Char.ofNat (c.toNat + 32) ≤ 'Z') := by
      rw [char_le_iff, ht]
      show ¬ c.toNat + 32 ≤ 90
      omega
    simp [hno]
  · rw [if_neg h]
    exact Bool.of_not_eq_true h

theorem lookup_some_mem {α β : Type} [BEq α] [LawfulBEq α] :
    ∀ (al : List (α × β)) (k : α) (v : β),
      List.lookup k al = some v → (k, v) ∈ al := by
  intro al
  induction al with
  | nil => intro k v h; exact absurd h (by simp [List.lookup])
  | cons e tl ih =>
    intro k v h
    rw [List.lookup] at h
    cases hb : k == e.1 with
    | true =>
      rw [hb] at h
      cases h
      have : k = e.1 := beq_iff_eq.mp hb
      rw [this]
      exact List.mem_cons_self _ _
    | false =>
      rw [hb] at h
      exact List.mem_cons_of_mem e (ih k v h)

theorem mem_stripURLsF :
    ∀ (f : Nat) (l : List Char) (c : Char), l.length ≤ f →
      c ∈ stripURLsF f l → c ∈ l := by
  intro f
  induction f with
  | zero =>
    intro l c h hc
    have hl : l = [] := List.length_eq_zero.mp (Nat.le_zero.mp h)
    subst hl
    exact absurd hc (by simp [stripURLsF])
  | succ f ih =>
    intro l c h hc
    cases l with
    | nil => exact absurd hc (by simp [stripURLsF])
    | cons a tl =>
      have htl : tl.length ≤ f := by simpa using h
      simp only [stripURLsF] at hc
      by_cases hu : urlHead (a :: tl)
      · rw [if_pos hu] at hc
        have := ih _ c (Nat.le_trans (length_dropWhile_le _ _) htl) hc
        obtain ⟨t0, ht0⟩ := dropWhile_suffix_ex (fun d => !isSpaceCh d) tl
        exact List.mem_cons_of_mem a (ht0 ▸ List.mem_append_right t0 this)
      · rw [if_neg hu] at hc
        rcases List.mem_cons.mp hc with rfl | hc
        · exact List.mem_cons_self _ _
        · exact List.mem_cons_of_mem a (ih tl c htl hc)

theorem mem_stripMentionsF :
    ∀ (f : Nat) (l : List Char) (c : Char), l.length ≤ f →
      c ∈ stripMentionsF f l → c ∈ l := by
  intro f
  induction f with
  | zero =>
    intro l c h hc
    have hl : l = [] := List.length_eq_zero.mp (Nat.le_zero.mp h)
    subst hl
    exact absurd hc (by simp [stripMentionsF])
  | succ f ih =>
    intro l c h hc
    cases l with
    | nil => exact absurd hc (by simp [stripMentionsF])
    | cons a tl =>
      have htl : tl.length ≤ f := by simpa using h
      simp only [stripMentionsF] at hc
      by_cases hm : (a == '@' && headWord tl) = true
      · rw [if_pos hm] at hc
        have := ih _ c (Nat.le_trans (length_dropWhile_le _ _) htl) hc
        obtain ⟨t0, ht0⟩ := dropWhile_suffix_ex isWordCh tl
        exact List.mem_cons_of_mem a (ht0 ▸ List.mem_append_right t0 this)
      · rw [if_neg hm] at hc
        rcases List.mem_cons.mp hc with rfl | hc
        · exact List.mem_cons_self _ _
        · exact List.mem_cons_of_mem a (ih tl c htl hc)

theorem mem_demojize (l : List Char) (c : Char) (hc : c ∈ demojize l) :
    c ∈ l ∨ c = ' ' ∨ ∃ e ∈ emojiTable, c ∈ e.2 := by
  rw [demojize] at hc
  obtain ⟨m, hm, hcm⟩ := List.mem_flatten.mp hc
  obtain ⟨d, hd, hdm⟩ := List.mem_map.mp hm
  cases hlk : emojiTable.lookup d with
  | none =>
    rw [hlk] at hdm
    rw [← hdm] at hcm
    rcases List.mem_cons.mp hcm with rfl | hfalse
    · exact Or.inl hd
    · exact absurd hfalse (List.not_mem_nil c)
  | some nm =>
    rw [hlk] at hdm
    rw [← hdm] at hcm
    rcases List.mem_cons.mp hcm with rfl | hcm
    · exact Or.inr (Or.inl rfl)
    · rcases List.mem_append.mp hcm with hcm | hcm
      · exact Or.inr (Or.inr ⟨(d, nm), lookup_some_mem emojiTable d nm hlk, hcm⟩)
      · rcases List.mem_cons.mp hcm with rfl | hfalse
        · exact Or.inr (Or.inl rfl)
        · exact absurd hfalse (List.not_mem_nil c)

theorem mem_slangSub (w : List Char) (c : Char) (hc : c ∈ slangSub w) :
    c ∈ w ∨ ∃ e ∈ SENTIMENT_FLIPS, c ∈ e.2 := by
  rw [slangSub] at hc
  cases hlk : SENTIMENT_FLIPS.lookup w with
  | none => rw [hlk] at hc; exact Or.inl hc
  | some v =>
    rw [hlk] at hc
    exact Or.inr ⟨(w, v), lookup_some_mem _ w v hlk, hc⟩

theorem mem_wordsChF :
    ∀ (f : Nat) (l : List Char) (w : List Char) (c : Char), l.length ≤ f →
      w ∈ wordsChF f l → c ∈ w → c ∈ l := by
  intro f
  induction f with
  | zero =>
    intro l w c h hw _
    have hl : l = [] := List.length_eq_zero.mp (Nat.le_zero.mp h)
    subst hl
    exact absurd hw (by simp [wordsChF])
  | succ f ih =>
    intro l w c h hw hc
    cases l with
    | nil => exact absurd hw (by simp [wordsChF])
    | cons a tl =>
      have htl : tl.length ≤ f := by simpa using h
      simp only [wordsChF] at hw
      by_cases hs : isSpaceCh a
      · rw [if_pos hs] at hw
        exact List.mem_cons_of_mem a (ih tl w c htl hw hc)
      · rw [if_neg hs] at hw
        rcases List.mem_cons.mp hw with rfl | hw
        · rcases List.mem_cons.mp hc with rfl | hc
          · exact List.mem_cons_self _ _
          · exact List.mem_cons_of_mem a
              ((List.takeWhile_sublist _).subset hc)
        · have := ih _ w c (Nat.le_trans (length_dropWhile_le _ _) htl) hw hc
          obtain ⟨t0, ht0⟩ := dropWhile_suffix_ex (fun d => !isSpaceCh d) tl
          exact List.mem_cons_of_mem a (ht0 ▸ List.mem_append_right t0 this)

theorem mem_intercalate_space (ws : List (List Char)) (c : Char)
    (hc : c ∈ List.intercalate [' '] ws) :
    (∃ w ∈ ws, c ∈ w) ∨ c = ' ' := by
  induction ws with
  | nil => exact absurd hc (by simp [List.intercalate])
  | cons w ws' ih =>
    cases ws' with
    | nil =>
      rw [show List.intercalate [' '] [w] = w by simp [List.intercalate]] at hc
      exact Or.inl ⟨w, List.mem_cons_self w _, hc⟩
    | cons w2 ws'' =>
      rw [intercalate_space_cons_cons] at hc
      rcases List.mem_append.mp hc with hc | hc
      · exact Or.inl ⟨w, List.mem_cons_self w _, hc⟩
      · rcases List.mem_cons.mp hc with rfl | hc
        · exact Or.inr rfl
        · rcases ih hc with ⟨v, hv, hcv⟩ | hc
          · exact Or.inl ⟨v, List.mem_cons_of_mem w hv, hcv⟩
          · exact Or.inr hc

theorem mem_collapseWS (l : List Char) (c : Char) (hc : c ∈ collapseWS l) :
    c ∈ l ∨ c = ' ' := by
  rcases mem_intercalate_space _ c hc with ⟨w, hw, hcw⟩ | hc
  · exact Or.inl (mem_wordsChF l.length l w c (Nat.le_refl _) hw hcw)
  · exact Or.inr hc

theorem mem_slangJoin (l : List Char) (c : Char) (hc : c ∈ slangJoin l) :
    c ∈ l ∨ c = ' ' ∨ ∃ e ∈ SENTIMENT_FLIPS, c ∈ e.2 := by
  rw [slangJoin] at hc
  rcases mem_intercalate_space _ c hc with ⟨w, hw, hcw⟩ | hc
  · obtain ⟨v, hv, hvw⟩ := List.mem_map.mp hw
    rcases mem_slangSub v c (hvw ▸ hcw) with hcv | hflip
    · exact Or.inl (mem_wordsChF l.length l v c (Nat.le_refl _) hv hcv)
    · exact Or.inr (Or.inr hflip)
  · exact Or.inr (Or.inl hc)

theorem emojiTable_values_not_upper :
    ∀ e ∈ emojiTable, ∀ c ∈ e.2, ('A' ≤ c && c ≤ 'Z') = false := by decide

theorem SENTIMENT_FLIPS_values_not_upper :
    ∀ e ∈ SENTIMENT_FLIPS, ∀ c ∈ e.2, ('A' ≤ c && c ≤ 'Z') = false := by decide

theorem cleanCh_kept (l : List Char) (c : Char) (hc : c ∈ cleanCh l) :
    keptChar c = true := by
  rw [cleanCh] at hc
  by_cases hsp : l.all isSpaceCh
  · rw [if_pos hsp] at hc
    exact absurd hc (List.not_mem_nil c)
  · rw [if_neg hsp] at hc
    rcases mem_collapseWS _ c hc with hc | rfl
    · exact (List.mem_filter.mp hc).2
    · decide

theorem cleanCh_not_upper (l : List Char) (c : Char) (hc : c ∈ cleanCh l) :
    ('A' ≤ c && c ≤ 'Z') = false := by
  rw [cleanCh] at hc
  by_cases hsp : l.all isSpaceCh
  · rw [if_pos hsp] at hc
    exact absurd hc (List.not_mem_nil c)
  · rw [if_neg hsp] at hc
    rcases mem_collapseWS _ c hc with hc | rfl
    · have hc2 := List.mem_of_mem_filter hc
      rcases mem_slangJoin _ c hc2 with hc3 | rfl | ⟨e, he, hce⟩
      · rcases mem_demojize _ c hc3 with hc4 | rfl | ⟨e, he, hce⟩
        · have hc5 := mem_stripMentionsF _ _ c (Nat.le_refl _) hc4
          have hc6 := mem_stripURLsF _ _ c (Nat.le_refl _) hc5
          obtain ⟨d, _, rfl⟩ := List.mem_map.mp hc6
          exact toLowerCh_not_upper d
        · decide
        · exact emojiTable_values_not_upper e he c hce
      · decide
      · exact SENTIMENT_FLIPS_values_not_upper e he c hce
    · decide

/-! ### Stage identity lemmas and idempotence of `clean_text` -/

theorem map_toLowerCh_id (m : List Char)
    (h : ∀ c ∈ m, ('A' ≤ c && c ≤ 'Z') = false) : m.map toLowerCh = m := by
  induction m with
  | nil => rfl
  | cons c cs ih =>
    rw [List.map_cons, ih (fun d hd => h d (List.mem_cons_of_mem c hd))]
    have hc := h c (List.mem_cons_self c cs)
    rw [toLowerCh, if_neg (by rw [hc]; simp)]

theorem stripURLsF_id :
    ∀ (f : Nat) (m : List Char), m.length ≤ f → hasURLSub m = false →
      stripURLsF f m = m := by
  intro f
  induction f with
  | zero =>
    intro m h _
    have hm : m = [] := List.length_eq_zero.mp (Nat.le_zero.mp h)
    subst hm
    rfl
  | succ f ih =>
    intro m h hu
    cases m with
    | nil => rfl
    | cons c tl =>
      have htl : tl.length ≤ f := by simpa using h
      rw [hasURLSub, Bool.or_eq_false_iff] at hu
      simp only [stripURLsF]
      rw [if_neg (by rw [hu.1]; simp), ih tl htl hu.2]

theorem stripURLs_id (m : List Char) (h : hasURLSub m = false) :
    stripURLs m = m :=
  stripURLsF_id m.length m (Nat.le_refl _) h

theorem stripMentionsF_id :
    ∀ (f : Nat) (m : List Char), m.length ≤ f → '@' ∉ m →
      stripMentionsF f m = m := by
  intro f
  induction f with
  | zero =>
    intro m h _
    have hm : m = [] := List.length_eq_zero.mp (Nat.le_zero.mp h)
    subst hm
    rfl
  | succ f ih =>
    intro m h hat
    cases m with
    | nil => rfl
    | cons c tl =>
      have htl : tl.length ≤ f := by simpa using h
      have hc : (c == '@') = false := by
        rw [beq_eq_false_iff_ne]
        intro hc
        exact hat (hc ▸ List.mem_cons_self c tl)
      simp only [stripMentionsF]
      rw [if_neg (by rw [hc]; simp),
        ih tl htl (fun hm => hat (List.mem_cons_of_mem c hm))]

theorem stripMentions_id (m : List Char) (h : '@' ∉ m) :
    stripMentions m = m :=
  stripMentionsF_id m.length m (Nat.le_refl _) h

theorem emojiTable_keys_not_kept :
    ∀ e ∈ emojiTable, keptChar e.1 = false := by decide

theorem lookup_emojiTable_none (c : Char) (h : keptChar c = true) :
    emojiTable.lookup c = none := by
  cases hlk : emojiTable.lookup c with
  | none => rfl
  | some v =>
    have hmem := lookup_some_mem emojiTable c v hlk
    have := emojiTable_keys_not_kept (c, v) hmem
    rw [h] at this
    exact Bool.noConfusion this

theorem demojize_id (m : List Char) (h : ∀ c ∈ m, keptChar c = true) :
    demojize m = m := by
  induction m with
  | nil => rfl
  | cons c cs ih =>
    rw [demojize, List.map_cons, List.flatten_cons,
      lookup_emojiTable_none c (h c (List.mem_cons_self c cs))]
    have ih' := ih (fun d hd => h d (List.mem_cons_of_mem c hd))
    rw [demojize] at ih'
    rw [ih']
    rfl

theorem slangJoin_eq_collapseWS (m : List Char)
    (h : ∀ w ∈ wordsCh m, SENTIMENT_FLIPS.lookup w = none) :
    slangJoin m = collapseWS m := by
  rw [slangJoin, collapseWS]
  congr 1
  rw [show (wordsCh m).map slangSub = (wordsCh m).map id from
    List.map_congr_left (fun w hw => by rw [slangSub, h w hw]; rfl)]
  exact List.map_id _

theorem all_isSpaceCh_false_of_words (m : List Char)
    (h : m.all isSpaceCh = true) : wordsCh m = [] := by
  induction m with
  | nil => rfl
  | cons c cs ih =>
    rw [List.all_cons, Bool.and_eq_true] at h
    rw [wordsCh_cons, if_pos h.1]
    exact ih h.2

/-- The heart of C8: on any output of `clean_text` whose tokens do not
hit the slang table and which contains no URL-pattern substring, every
stage of `clean_text` is the identity, so `clean_text` is idempotent
there. -/
theorem cleanCh_cleanCh (l : List Char)
    (hslang : ∀ w ∈ wordsCh (cleanCh l), SENTIMENT_FLIPS.lookup w = none)
    (hurl : hasURLSub (cleanCh l) = false) :
    cleanCh (cleanCh l) = cleanCh l := by
  by_cases hnil : cleanCh l = []
  · rw [hnil]
    rfl
  · have hz : ∃ z, cleanCh l = collapseWS z := by
      by_cases hsp : l.all isSpaceCh
      · exact absurd (by rw [cleanCh, if_pos hsp]) hnil
      · exact ⟨_, by rw [cleanCh, if_neg hsp]⟩
    obtain ⟨z, hzz⟩ := hz
    have hkept : ∀ c ∈ cleanCh l, keptChar c = true := cleanCh_kept l
    have hup : ∀ c ∈ cleanCh l, ('A' ≤ c && c ≤ 'Z') = false := cleanCh_not_upper l
    have hat : '@' ∉ cleanCh l := fun hc => by
      have := hkept '@' hc
      exact absurd this (by decide)
    have hnsp : ¬ ((cleanCh l).all isSpaceCh = true) := by
      intro hall
      have hw0 : wordsCh (cleanCh l) = [] := all_isSpaceCh_false_of_words _ hall
      rw [hzz, collapseWS, wordsCh_intercalate _ (wordsCh_tokens z)] at hw0
      rw [hzz, collapseWS, hw0] at hnil
      exact hnil (by simp [List.intercalate])
    have e6 : collapseWS (cleanCh l) = cleanCh l := by
      rw [hzz]
      exact collapseWS_idem z
    rw [cleanCh, if_neg hnsp, map_toLowerCh_id _ hup, stripURLs_id _ hurl,
      stripMentions_id _ hat, demojize_id _ hkept,
      slangJoin_eq_collapseWS _ hslang, e6,
      List.filter_eq_self.mpr hkept, e6]

/-- C8 fails on the code as stated: `x = "ht~tpx"` contains no token of
the slang table (nor does its normalized form), yet normalization is
not idempotent on it — the character-stripping step creates the URL
token `"httpx"`, which the second pass then strips to `""`. -/
theorem C8_counterexample :
    (∀ w ∈ wordsCh "ht~tpx".data, SENTIMENT_FLIPS.lookup w = none) ∧
    (∀ w ∈ wordsCh (cleanText "ht~tpx").data, SENTIMENT_FLIPS.lookup w = none) ∧
    cleanText (cleanText "ht~tpx") ≠ cleanText "ht~tpx" :=
  ⟨by decide, by decide, by decide⟩

/-- C8 amended: `normalize` is idempotent on every string whose
normalized form neither contains a slang-table token nor a URL-pattern
substring. -/
theorem C8_idempotent (x : String)
    (hslang : ∀ w ∈ wordsCh (cleanText x).data, SENTIMENT_FLIPS.lookup w = none)
    (hurl : hasURLSub (cleanText x).data = false) :
    cleanText (cleanText x) = cleanText x := by
  have h := cleanCh_cleanCh x.data hslang hurl
  show (⟨cleanCh (cleanCh x.data)⟩ : String) = ⟨cleanCh x.data⟩
  rw [h]

/-- Witness for `C8_idempotent` on a slang-free, URL-free input. -/
theorem C8_idempotent_witness :
    cleanText (cleanText "hello world!") = cleanText "hello world!" :=
  C8_idempotent "hello world!" (by decide) (by decide)

example : cleanText "Check https://t.co/x and @bob NOW!!" = "check and now!!" := by decide

example : cleanText "ht~tpx" = "httpx" := by decide

example : cleanText "this song slaps" = "this song amazing" := by decide

example : cleanText "" = "" := by decide

example : cleanText "   " = "" := by decide

end SentimentScope
